import Mathlib

/-!
# Verification of the euka-tracker core algorithms

Shallow embedding, in Lean 4, of the algorithmic core of the euka-tracker
repository, together with proofs about the embedded definitions.

Embedded components:
* `scripts/build_coverage.py` — leaf coverage classification (`species_state`)
  and bottom-up propagation (`propagate_states`).
* `pipeline/build_tree.py` — tree construction from an edge list (`build_tree`).
* `scripts/radial_layout.py` — the recursive radial layout (`_layout`,
  `radial_layout`).
* `scripts/build_tree_tiles.py` — tile row assignment (`assign_tile_y`),
  chain collapsing (`collapse_chains`), stratified aggregation
  (`aggregate_subtrees`) and the LOD driver (`lod_downsample`).

Modelling conventions:
* Python dicts and sets are modelled as association lists / lists with
  membership semantics; a dict built by appending is modelled by the
  function that returns, for a key, the list of values inserted for it in
  insertion order.
* Python floats in the layout formulas are idealised as real numbers `ℝ`
  (the layout uses `sqrt`, `sin`, `cos`, `log2`); floats in the tile
  builder are modelled as rationals `ℚ` so the definitions stay executable.
* `numpy`'s `astype(int64)` cast truncates toward zero; it is modelled by
  `truncI`.
* File I/O, Parquet/JSON serialisation and CLI parsing are outside the
  embedded core, per the repository's own scoping.
-/

namespace EukaTracker

/-! ## Coverage classification (`scripts/build_coverage.py`) -/

/-- Coverage state constant `FULL` (build_coverage.py line 15). -/
def FULL : Nat := 5

/-- Coverage state constant `GENOME_ANNOTATION_ONLY` (line 16). -/
def GENOME_ANNOTATION_ONLY : Nat := 4

/-- Coverage state constant `GENOME_READS_NO_ANNOTATION` (line 17). -/
def GENOME_READS_NO_ANNOTATION : Nat := 3

/-- Coverage state constant `GENOME_ONLY` (line 18). -/
def GENOME_ONLY : Nat := 2

/-- Coverage state constant `READS_ONLY` (line 19). -/
def READS_ONLY : Nat := 1

/-- Coverage state constant `NO_DATA` (line 20). -/
def NO_DATA : Nat := 0

/-- `species_state` from build_coverage.py (lines 28-44): classify a leaf
from its three boolean flags, first matching rule wins. -/
def species_state (has_assembly has_annotation has_reads : Bool) : Nat :=
  let asm := has_assembly
  let ann := has_annotation
  let reads := has_reads
  if ann && reads then FULL
  else if ann && !reads then GENOME_ANNOTATION_ONLY
  else if asm && !ann && reads then GENOME_READS_NO_ANNOTATION
  else if asm && !ann && !reads then GENOME_ONLY
  else if !asm && reads then READS_ONLY
  else NO_DATA

/-- C5: for all 8 flag combinations, `species_state` agrees with the spec's
six-rule priority decision table (annotation∧reads→5, annotation∧¬reads→4,
assembly∧¬annotation∧reads→3, assembly∧¬annotation∧¬reads→2,
¬assembly∧reads→1, otherwise 0). -/
theorem species_state_matches_decision_table (a b r : Bool) :
    species_state a b r =
      (if b && r then 5
       else if b && !r then 4
       else if a && !b && r then 3
       else if a && !b && !r then 2
       else if !a && r then 1
       else 0) := by
  cases a <;> cases b <;> cases r <;> rfl

/-! ## Coverage propagation (`scripts/build_coverage.py`, `propagate_states`)

The Python function takes `species_states : dict[int,int]`,
`parents : dict[int,int]` (child → parent) and `all_taxids : set[int]`.
We model the dicts as association lists (key, value) with distinct keys and
the set as a list; the mutable `state` dict is modelled as a total function
`Nat → Nat` whose value outside `all_taxids` is `NO_DATA`, matching
`state.get(_, NO_DATA)`. -/

/-- A row of the species matrix consumed by `load_species_matrix`
(build_coverage.py lines 47-71): a taxid and its three boolean flags. -/
structure FlagRow where
  taxid : Nat
  has_assembly : Bool
  has_annotation : Bool
  has_reads : Bool
deriving DecidableEq

/-- `load_species_matrix` (lines 61-69): taxid → `species_state` of the
row's flags, as an association list. -/
def load_species_matrix (rows : List FlagRow) : List (Nat × Nat) :=
  rows.map fun r => (r.taxid, species_state r.has_assembly r.has_annotation r.has_reads)

/-- Association-list lookup with a default, modelling `dict.get(k, d)`. -/
def lookupD (l : List (Nat × Nat)) (k d : Nat) : Nat :=
  match l.lookup k with
  | some v => v
  | none => d

/-- The children map built in `propagate_states` (lines 101-105):
`for c, p in parents.items(): children[p].append(c)`; querying key `p`
returns the children inserted for it, in insertion order. -/
def childrenMapOf (parents : List (Nat × Nat)) (p : Nat) : List Nat :=
  (parents.filter fun cp => cp.2 = p).map fun cp => cp.1

/-- `roots = all_taxids - set(parents.keys())` (line 108). -/
def covRoots (parents : List (Nat × Nat)) (all_taxids : List Nat) : List Nat :=
  all_taxids.filter fun t => ¬ t ∈ parents.map Prod.fst

/-- The DFS loop of `propagate_states` (lines 110-120): an explicit stack
(`pop()` takes the head), a `seen` set and the accumulated `order`.
Children not yet seen are pushed; Python appends them to the end of the
list and pops from the end, so the last child ends on top — hence the
`reverse`. The loop always terminates (each node is appended to `seen` at
most once, and only processing a new node pushes), which the explicit
`fuel` argument makes structural. -/
def dfsLoop (children : Nat → List Nat) :
    Nat → List Nat → List Nat → List Nat → List Nat
  | 0, _, _, order => order
  | _ + 1, [], _, order => order
  | fuel + 1, n :: stack, seen, order =>
    if n ∈ seen then
      dfsLoop children fuel stack seen order
    else
      let seen' := n :: seen
      let order' := order ++ [n]
      let toPush := ((children n).filter fun c => ¬ c ∈ seen').reverse
      dfsLoop children fuel (toPush ++ stack) seen' order'

/-- The traversal order computed by `propagate_states` (lines 107-120):
DFS from the roots. The fuel `|roots| + |parents| + 1` bounds the number
of loop iterations (each parents entry is pushed at most once). -/
def covOrder (parents : List (Nat × Nat)) (all_taxids : List Nat) : List Nat :=
  let roots := covRoots parents all_taxids
  dfsLoop (childrenMapOf parents) (roots.length + parents.length + 1) roots [] []

/-- `max(...)` over the states of a list of children, modelling
`max(state.get(c, NO_DATA) for c in kids)` for a nonempty `kids`. -/
def statesMax (st : Nat → Nat) (kids : List Nat) : Nat :=
  (kids.map st).foldr max 0

/-- One step of the propagation loop (lines 123-127): if `n` has children,
`state[n] = max(state.get(n, NO_DATA), best)`. -/
def covStep (children : Nat → List Nat) (st : Nat → Nat) (n : Nat) : Nat → Nat :=
  let kids := children n
  if kids = [] then st
  else fun t => if t = n then max (st n) (statesMax st kids) else st t

/-- The initial state dict (line 97):
`{tid: species_states.get(tid, NO_DATA) for tid in all_taxids}`, read with
default `NO_DATA` outside its key set. -/
def covInit (species_states : List (Nat × Nat)) (all_taxids : List Nat) : Nat → Nat :=
  fun t => if t ∈ all_taxids then lookupD species_states t NO_DATA else NO_DATA

/-- `propagate_states` (lines 88-129): initial per-taxid states, DFS order
from the roots, then a leaves-first (`reversed(order)`) maximum
propagation pass. -/
def propagate_states (species_states parents : List (Nat × Nat))
    (all_taxids : List Nat) : Nat → Nat :=
  (covOrder parents all_taxids).reverse.foldl
    (covStep (childrenMapOf parents))
    (covInit species_states all_taxids)

/-! ### Lemmas about the propagation -/

/-- A fold of `covStep` never changes the state of a node outside the
processed list. -/
theorem covStep_foldl_notMem (children : Nat → List Nat) (l : List Nat)
    (st : Nat → Nat) (x : Nat) (hx : ¬ x ∈ l) :
    l.foldl (covStep children) st x = st x := by
  induction l generalizing st with
  | nil => rfl
  | cons n rest ih =>
    have hxn : x ≠ n := fun h => hx (h ▸ List.mem_cons_self n rest)
    have hxr : ¬ x ∈ rest := fun h => hx (List.mem_cons_of_mem _ h)
    rw [List.foldl_cons, ih _ hxr]
    unfold covStep
    by_cases hk : children n = []
    · simp [hk]
    · simp [hk, hxn]

/-- A node with no children is never updated by the propagation fold. -/
theorem covStep_foldl_leaf (children : Nat → List Nat) (l : List Nat)
    (st : Nat → Nat) (x : Nat) (hx : children x = []) :
    l.foldl (covStep children) st x = st x := by
  induction l generalizing st with
  | nil => rfl
  | cons n rest ih =>
    rw [List.foldl_cons, ih]
    unfold covStep
    by_cases hk : children n = []
    · simp [hk]
    · by_cases hxn : x = n
      · subst hxn; exact absurd hx hk
      · simp [hk, hxn]

/-- Members of a children list contribute to `statesMax`. -/
theorem le_statesMax (st : Nat → Nat) (kids : List Nat) (c : Nat)
    (hc : c ∈ kids) : st c ≤ statesMax st kids := by
  induction kids with
  | nil => cases hc
  | cons k rest ih =>
    unfold statesMax
    rcases List.mem_cons.mp hc with h | h
    · subst h; exact le_max_left _ _
    · exact le_trans (ih h) (by simp [statesMax, le_max_right])

/-- Core fold lemma: if `p` is processed after `c` in the leaves-first pass
(and neither is touched afterwards), the final state of `p` dominates the
final state of `c` whenever `c` is a child of `p`. -/
theorem covFold_child_le (children : Nat → List Nat) (st0 : Nat → Nat)
    (r1 r2 : List Nat) (p c : Nat)
    (hc : c ∈ children p) (hcr : ¬ c ∈ r2) (hpr : ¬ p ∈ r2) :
    (r1 ++ p :: r2).foldl (covStep children) st0 c ≤
      (r1 ++ p :: r2).foldl (covStep children) st0 p := by
  rw [List.foldl_append]
  set st1 := r1.foldl (covStep children) st0 with hst1
  rw [List.foldl_cons]
  rw [covStep_foldl_notMem children r2 _ c hcr,
      covStep_foldl_notMem children r2 _ p hpr]
  have hkids : children p ≠ [] := by
    intro h; rw [h] at hc; cases hc
  by_cases hcp : c = p
  · exact hcp ▸ le_refl _
  · unfold covStep
    simp only [if_neg hkids, if_neg hcp, if_pos rfl]
    exact le_trans (le_statesMax st1 (children p) c hc) (le_max_right _ _)

/-! ### Lemmas about the DFS order -/

/-- `Before p c l`: in list `l`, every occurrence of `c` is preceded by an
occurrence of `p`. -/
def Before (p c : Nat) (l : List Nat) : Prop :=
  ∀ l1 l2, l = l1 ++ c :: l2 → p ∈ l1

theorem Before.nil (p c : Nat) : Before p c [] := by
  intro l1 l2 h
  cases l1 <;> simp_all

theorem Before.append_singleton {p c n : Nat} {l : List Nat}
    (hb : Before p c l) (h : c ≠ n ∨ p ∈ l) : Before p c (l ++ [n]) := by
  intro l1 l2 heq
  induction l2 using List.reverseRecOn with
  | nil =>
    -- l ++ [n] = l1 ++ [c] : append injectivity on equal-length suffixes
    have hinj := List.append_inj' heq (by rfl)
    have hcn : n = c := by
      have := hinj.2
      injection this
    rcases h with h | h
    · exact absurd hcn.symm h
    · exact hinj.1 ▸ h
  | append_singleton ys y _ =>
    -- l ++ [n] = (l1 ++ c :: ys) ++ [y]
    have heq' : l ++ [n] = (l1 ++ c :: ys) ++ [y] := by
      simpa [List.append_assoc] using heq
    have hinj := List.append_inj' heq' (by rfl)
    exact hb l1 ys hinj.1

theorem Before.mono_append {p c : Nat} {l : List Nat} (hp : p ∈ l)
    (hb : Before p c l) : ∀ (k : List Nat), Before p c (l ++ k) := by
  intro k
  induction k using List.reverseRecOn with
  | nil => simpa using hb
  | append_singleton ys y ih =>
    have := Before.append_singleton (n := y) ih (Or.inr (by simp [hp]))
    simpa [List.append_assoc] using this

/-- The DFS loop emits each node at most once: entries are appended to
`order` only together with `seen`, and `seen` is checked first. -/
theorem dfsLoop_nodup (children : Nat → List Nat) :
    ∀ (fuel : Nat) (stack seen order : List Nat),
      order.Nodup → (∀ x ∈ order, x ∈ seen) →
      (dfsLoop children fuel stack seen order).Nodup := by
  intro fuel
  induction fuel with
  | zero => intro stack seen order h _; exact h
  | succ fuel ih =>
    intro stack seen order hnd hsub
    match stack with
    | [] => exact hnd
    | n :: stack =>
      unfold dfsLoop
      by_cases hn : n ∈ seen
      · simpa [hn] using ih stack seen order hnd hsub
      · simp only [hn, if_neg hn]
        apply ih
        · exact List.Nodup.append hnd (List.nodup_singleton n)
            (by
              intro x hx hx'
              have : x = n := by simpa using hx'
              exact hn (this ▸ hsub x hx))
        · intro x hx
          rcases List.mem_append.mp hx with h | h
          · exact List.mem_cons_of_mem _ (hsub x h)
          · simp at h; simp [h]

/-- The DFS loop preserves `Before p c` for the accumulated order, provided
`c` can only be pushed from `p` (i.e. `p` is `c`'s unique parent) and every
stacked copy of `c` already has `p` in the order. -/
theorem dfsLoop_before (children : Nat → List Nat) (p c : Nat)
    (hcp : ∀ n, c ∈ children n → n = p) :
    ∀ (fuel : Nat) (stack seen order : List Nat),
      (∀ x ∈ stack, x = c → p ∈ order) → Before p c order →
      Before p c (dfsLoop children fuel stack seen order) := by
  intro fuel
  induction fuel with
  | zero => intro stack seen order _ hb; exact hb
  | succ fuel ih =>
    intro stack seen order hstack hb
    match stack with
    | [] => exact hb
    | n :: stack =>
      unfold dfsLoop
      by_cases hn : n ∈ seen
      · simp only [hn, if_pos hn]
        exact ih stack seen order
          (fun x hx => hstack x (List.mem_cons_of_mem _ hx)) hb
      · simp only [hn, if_neg hn]
        apply ih
        · intro x hx hxc
          subst hxc
          rcases List.mem_append.mp hx with h | h
          · have hxch : x ∈ children n := by
              have := List.mem_reverse.mp h
              exact (List.mem_filter.mp this).1
            have : n = p := hcp n hxch
            subst this
            simp
          · exact List.mem_append_left _ (hstack x (List.mem_cons_of_mem _ h) rfl)
        · apply Before.append_singleton hb
          by_cases hcn : c = n
          · exact Or.inr (hstack n (List.mem_cons_self n stack) hcn.symm)
          · exact Or.inl hcn

/-- With distinct keys, an association list determines its values. -/
theorem assoc_key_unique {l : List (Nat × Nat)} {c p q : Nat}
    (hnd : (l.map Prod.fst).Nodup) (h1 : (c, p) ∈ l) (h2 : (c, q) ∈ l) :
    p = q := by
  induction l with
  | nil => cases h1
  | cons a rest ih =>
    have hnd' := hnd
    rw [List.map_cons, List.nodup_cons] at hnd'
    rcases List.mem_cons.mp h1 with h1 | h1
    · rcases List.mem_cons.mp h2 with h2 | h2
      · have : (c, p) = (c, q) := h1.trans h2.symm
        injection this
      · exfalso
        exact hnd'.1 (List.mem_map.mpr ⟨(c, q), h2, by rw [← h1]⟩)
    · rcases List.mem_cons.mp h2 with h2 | h2
      · exfalso
        exact hnd'.1 (List.mem_map.mpr ⟨(c, p), h1, by rw [← h2]⟩)
      · exact ih hnd'.2 h1 h2

/-- `covOrder` has no duplicates. -/
theorem covOrder_nodup (parents : List (Nat × Nat)) (all_taxids : List Nat) :
    (covOrder parents all_taxids).Nodup := by
  apply dfsLoop_nodup
  · exact List.nodup_nil
  · intro x hx; cases hx

/-- In `covOrder`, every occurrence of a child is preceded by its (unique)
parent. -/
theorem covOrder_before (parents : List (Nat × Nat)) (all_taxids : List Nat)
    (c p : Nat) (hkeys : (parents.map Prod.fst).Nodup)
    (hmem : (c, p) ∈ parents) :
    Before p c (covOrder parents all_taxids) := by
  apply dfsLoop_before
  · intro n hn
    rcases List.mem_map.mp hn with ⟨pair, hpair, hfst⟩
    rcases pair with ⟨a, b⟩
    have ha : a = c := hfst
    have hb : b = n := by
      have := (List.mem_filter.mp hpair).2
      simpa using this
    have hmem2 : (c, n) ∈ parents := by
      have := (List.mem_filter.mp hpair).1
      rwa [ha, hb] at this
    exact assoc_key_unique hkeys hmem2 hmem
  · intro x hx hxc
    subst hxc
    exfalso
    have hnot : ¬ x ∈ parents.map Prod.fst := by
      have := (List.mem_filter.mp hx).2
      simpa using this
    exact hnot (List.mem_map.mpr ⟨(x, p), hmem, rfl⟩)
  · exact Before.nil p c

/-- Splitting `covOrder` at a parent `p`: `p` occurs once, and no
occurrence of its child `c` precedes it. -/
theorem covOrder_split (parents : List (Nat × Nat)) (all_taxids : List Nat)
    (c p : Nat) (hkeys : (parents.map Prod.fst).Nodup)
    (hmem : (c, p) ∈ parents) (hp : p ∈ covOrder parents all_taxids) :
    ∃ o1 o2, covOrder parents all_taxids = o1 ++ p :: o2 ∧
      ¬ c ∈ o1 ∧ ¬ p ∈ o1 := by
  rcases List.append_of_mem hp with ⟨o1, o2, heq⟩
  refine ⟨o1, o2, heq, ?_, ?_⟩
  · intro hco1
    have hbef := covOrder_before parents all_taxids c p hkeys hmem
    rcases List.append_of_mem hco1 with ⟨a, b, hab⟩
    have hsplit : covOrder parents all_taxids = a ++ c :: (b ++ p :: o2) := by
      rw [heq, hab]; simp
    have hpa : p ∈ a := hbef a (b ++ p :: o2) hsplit
    have hnd := covOrder_nodup parents all_taxids
    rw [heq] at hnd
    have hdisj := (List.nodup_append.mp hnd).2.2
    exact hdisj (hab ▸ List.mem_append_left _ hpa) (List.mem_cons_self p o2)
  · intro hpo1
    have hnd := covOrder_nodup parents all_taxids
    rw [heq] at hnd
    have hdisj := (List.nodup_append.mp hnd).2.2
    exact hdisj hpo1 (List.mem_cons_self p o2)

/-- Looking up a taxid in the loaded species matrix returns the
classification of that row's flags (keys distinct). -/
theorem lookupD_load_species_matrix (rows : List FlagRow) (fr : FlagRow)
    (d : Nat) (hnd : (rows.map FlagRow.taxid).Nodup) (hfr : fr ∈ rows) :
    lookupD (load_species_matrix rows) fr.taxid d =
      species_state fr.has_assembly fr.has_annotation fr.has_reads := by
  induction rows with
  | nil => cases hfr
  | cons r rest ih =>
    rw [List.map_cons, List.nodup_cons] at hnd
    rcases List.mem_cons.mp hfr with h | h
    · subst h
      unfold load_species_matrix lookupD
      simp [List.lookup]
    · have hne : r.taxid ≠ fr.taxid := by
        intro hEq
        exact hnd.1 (hEq ▸ List.mem_map.mpr ⟨fr, h, rfl⟩)
      unfold load_species_matrix lookupD
      simp only [List.map_cons, List.lookup]
      have hbeq : (fr.taxid == r.taxid) = false :=
        beq_eq_false_iff_ne.mpr (Ne.symm hne)
      rw [hbeq]
      exact ih hnd.2 h

/-- The final coverage map of `build_coverage.py`'s `main`: species matrix
rows classified by `species_state`, then propagated up the tree. -/
def coverageResult (rows : List FlagRow) (parents : List (Nat × Nat))
    (all_taxids : List Nat) : Nat → Nat :=
  propagate_states (load_species_matrix rows) parents all_taxids

/-- C4: after coverage propagation, (a) an internal node processed by the
traversal has a state ≥ the state of each of its children, and (b) a leaf
(no children) keeps exactly the six-way classification of its flags. -/
theorem propagate_states_monotone_and_leaf (rows : List FlagRow)
    (parents : List (Nat × Nat)) (all_taxids : List Nat)
    (hkeys : (parents.map Prod.fst).Nodup)
    (hrows : (rows.map FlagRow.taxid).Nodup) :
    (∀ c p, (c, p) ∈ parents → p ∈ covOrder parents all_taxids →
      coverageResult rows parents all_taxids c ≤
        coverageResult rows parents all_taxids p) ∧
    (∀ fr ∈ rows, childrenMapOf parents fr.taxid = [] →
      fr.taxid ∈ all_taxids →
      coverageResult rows parents all_taxids fr.taxid =
        species_state fr.has_assembly fr.has_annotation fr.has_reads) := by
  constructor
  · intro c p hmem hp
    rcases covOrder_split parents all_taxids c p hkeys hmem hp with
      ⟨o1, o2, heq, hco1, hpo1⟩
    unfold coverageResult propagate_states
    rw [heq]
    have hrev : (o1 ++ p :: o2).reverse = o2.reverse ++ p :: o1.reverse := by
      simp
    rw [hrev]
    apply covFold_child_le
    · exact List.mem_map.mpr
        ⟨(c, p), List.mem_filter.mpr ⟨hmem, by simp⟩, rfl⟩
    · simpa using hco1
    · simpa using hpo1
  · intro fr hfr hleaf hall
    unfold coverageResult propagate_states
    rw [covStep_foldl_leaf _ _ _ _ hleaf]
    unfold covInit
    rw [if_pos hall]
    exact lookupD_load_species_matrix rows fr NO_DATA hrows hfr

/-- Witness for C4 on a concrete two-node tree: taxid 2 (a fully covered
leaf) is the child of taxid 1; the propagated state of 1 dominates the
state of 2, and the leaf state equals its classification. -/
theorem propagate_states_monotone_and_leaf_witness :
    coverageResult [⟨2, true, true, true⟩] [(2, 1)] [1, 2] 2 ≤
      coverageResult [⟨2, true, true, true⟩] [(2, 1)] [1, 2] 1 ∧
    coverageResult [⟨2, true, true, true⟩] [(2, 1)] [1, 2] 2 =
      species_state true true true := by
  have h := propagate_states_monotone_and_leaf
    [⟨2, true, true, true⟩] [(2, 1)] [1, 2] (by decide) (by decide)
  refine ⟨h.1 2 1 (by decide) (by decide), ?_⟩
  exact h.2 ⟨2, true, true, true⟩ (by decide) (by decide) (by decide)

/-! ## Tree building (`pipeline/build_tree.py`)

`build_tree` consumes a parsed edge list (parent id, child id, name, rank)
— the TSV parsing and malformed-row skipping are I/O outside the core —
and produces a recursive tree plus the chosen root id.  A raised Python
`ValueError` is modelled as `Except.error`. -/

/-- One parsed row of the hierarchy TSV (build_tree.py lines 43-52). -/
structure EdgeRow where
  parent : String
  child : String
  name : String
  rank : String
deriving DecidableEq

/-- A recursive tree node (the dict built by `make_node`, lines 77-84). -/
structure TreeNode where
  id : String
  name : String
  rank : String
  children : List TreeNode

/-- `all_ids = {child for _, child in edges} | {p for p, _ in edges if p}`
(line 54), as a list with the same membership. -/
def allIds (edges : List EdgeRow) : List String :=
  edges.map (fun e => e.child) ++
    (edges.filter fun e => ¬ e.parent = "").map (fun e => e.parent)

/-- The `children` adjacency (lines 59-63): `child` is appended under
`parent` unless the parent is the `"0"`/empty sentinel or absent from
`all_ids` (in which case the child is a root candidate). -/
def tbChildren (edges : List EdgeRow) (p : String) : List String :=
  (edges.filter fun e =>
      e.parent = p ∧ ¬ (e.parent = "0" ∨ e.parent = "") ∧
        e.parent ∈ allIds edges).map (fun e => e.child)

/-- The root-candidate set of lines 59-63, as a list with set membership. -/
def tbRoots (edges : List EdgeRow) : List String :=
  (edges.filter fun e =>
      e.parent = "0" ∨ e.parent = "" ∨ ¬ e.parent ∈ allIds edges).map
    (fun e => e.child)

/-- `children_set` of the fallback (lines 66-68): every id that is ever
appended as a child in the adjacency. -/
def tbChildrenSet (edges : List EdgeRow) : List String :=
  (edges.filter fun e =>
      ¬ (e.parent = "0" ∨ e.parent = "") ∧ e.parent ∈ allIds edges).map
    (fun e => e.child)

/-- `node_info.get(nid, {})` (lines 52, 78): the name/rank of the LAST edge
row for `nid` (later dict writes win). -/
def nodeInfo (edges : List EdgeRow) (nid : String) : Option (String × String) :=
  match (edges.filter fun e => e.child = nid).getLast? with
  | some e => some (e.name, e.rank)
  | none => none

/-- `make_node` (lines 77-84): build the subtree rooted at `nid` with
children sorted by id.  Python recurses on the acyclic `children` map; the
explicit `fuel` (instantiated with `edges.length + 1`, an upper bound on
the tree depth) makes the recursion structural. -/
def make_node (edges : List EdgeRow) : Nat → String → TreeNode
  | 0, nid =>
    ⟨nid, (((nodeInfo edges nid).map Prod.fst).getD nid),
      (((nodeInfo edges nid).map Prod.snd).getD "no rank"), []⟩
  | fuel + 1, nid =>
    ⟨nid, (((nodeInfo edges nid).map Prod.fst).getD nid),
      (((nodeInfo edges nid).map Prod.snd).getD "no rank"),
      ((tbChildren edges nid).mergeSort (fun a b => decide (a ≤ b))).map
        (make_node edges fuel)⟩

/-- The value returned by `build_tree` (line 87), minus the flat
`node_info` lookup dict (unused by the claims). -/
structure BuildResult where
  tree : TreeNode
  root_id : String

/-- `build_tree` (lines 19-87) on a parsed edge list.  With an explicit
`root_id` the function checks membership in `all_ids` and raises
(`Except.error`) when absent; otherwise it picks the deterministic root
(sorted first candidate, with the never-a-child fallback when the
candidate set is empty).  Python's uncaught `IndexError` on an empty edge
list is also modelled as an error. -/
def build_tree (edges : List EdgeRow) (rootId? : Option String) :
    Except String BuildResult :=
  match rootId? with
  | some rid =>
    if rid ∈ allIds edges then
      .ok ⟨make_node edges (edges.length + 1) rid, rid⟩
    else
      .error ("root_id " ++ rid ++ " not found in hierarchy")
  | none =>
    let roots := (tbRoots edges).dedup
    let roots :=
      if roots = [] then
        ((allIds edges).dedup.filter fun i => ¬ i ∈ tbChildrenSet edges)
      else roots
    match roots.mergeSort (fun a b => decide (a ≤ b)) with
    | [] => .error "list index out of range"
    | r :: _ => .ok ⟨make_node edges (edges.length + 1) r, r⟩

/-- C9: with an explicit root id, `build_tree` fails with the
root-not-found error exactly when the id is absent from the edge-derived
node set, and otherwise returns the subtree built at that id (whose root
node carries that id). -/
theorem build_tree_explicit_root (edges : List EdgeRow) (rid : String) :
    (¬ rid ∈ allIds edges →
      build_tree edges (some rid) =
        .error ("root_id " ++ rid ++ " not found in hierarchy")) ∧
    (rid ∈ allIds edges →
      build_tree edges (some rid) =
        .ok ⟨make_node edges (edges.length + 1) rid, rid⟩ ∧
      (make_node edges (edges.length + 1) rid).id = rid) := by
  constructor
  · intro h
    show (if rid ∈ allIds edges then
        Except.ok (⟨make_node edges (edges.length + 1) rid, rid⟩ : BuildResult)
      else Except.error ("root_id " ++ rid ++ " not found in hierarchy")) = _
    rw [if_neg h]
  · intro h
    constructor
    · show (if rid ∈ allIds edges then
          Except.ok (⟨make_node edges (edges.length + 1) rid, rid⟩ : BuildResult)
        else Except.error ("root_id " ++ rid ++ " not found in hierarchy")) = _
      rw [if_pos h]
    · rfl

/-- Witness for C9 on a concrete two-edge hierarchy: id "99" is absent
(error), id "2" is present (subtree rooted at "2"). -/
theorem build_tree_explicit_root_witness :
    (build_tree [⟨"", "1", "Eukaryota", "superkingdom"⟩,
        ⟨"1", "2", "Animalia", "kingdom"⟩] (some "99") =
      .error ("root_id " ++ "99" ++ " not found in hierarchy")) ∧
    (build_tree [⟨"", "1", "Eukaryota", "superkingdom"⟩,
        ⟨"1", "2", "Animalia", "kingdom"⟩] (some "2") =
      .ok ⟨make_node [⟨"", "1", "Eukaryota", "superkingdom"⟩,
        ⟨"1", "2", "Animalia", "kingdom"⟩] 3 "2", "2"⟩) := by
  constructor
  · exact (build_tree_explicit_root _ "99").1 (by decide)
  · exact ((build_tree_explicit_root _ "2").2 (by decide)).1

/-! ## Tile building (`scripts/build_tree_tiles.py`)

The tile builder works on a dataframe of per-node rows.  Rows are modelled
as a structure; the float columns are modelled as rationals so every
definition stays executable.  `numpy`'s `.astype(np.int64)` truncates
toward zero (`truncI`); `pandas.DataFrame.head(n)` is `List.take n`;
`iloc[::step]` is `everyNth`; the stable `kind="mergesort"` sort is
`List.mergeSort`. -/

/-- One row of the merged node dataframe (the `cols` of line 177). -/
structure TileRow where
  taxid : Int
  parent_taxid : Int
  x : ℚ
  y : ℚ
  depth : Int
  coverage_state : Int
  name : String
  rank : String
deriving DecidableEq

/-- `MAX_NODES_PER_TILE = 20_000` (line 22). -/
def MAX_NODES_PER_TILE : Nat := 20000

/-- Truncation toward zero, the semantics of `.astype(np.int64)` on a
float column. -/
def truncI (x : ℚ) : Int := if 0 ≤ x then ⌊x⌋ else ⌈x⌉

/-- `assign_tile_y` (lines 78-81) for a single node:
`(y * 2**z).astype(int64).clip(0, 2**z - 1)`. -/
def assign_tile_y (y : ℚ) (z : Nat) : Int :=
  let n_tiles : Int := 2 ^ z
  max 0 (min (n_tiles - 1) (truncI (y * (2 ^ z : ℚ))))

/-- `taxids = set(tile_df["taxid"])` (line 92), as a list with the same
membership. -/
def tileTaxids (rows : List TileRow) : List Int :=
  rows.map fun r => r.taxid

/-- The condition under which `collapse_chains` (lines 93-98) appends a row's
taxid under its parent in `parent_to_children`. -/
def tileChildPred (rows : List TileRow) (p : Int) (r : TileRow) : Bool :=
  decide (r.parent_taxid = p ∧ 0 ≤ r.parent_taxid ∧
    r.parent_taxid ∈ tileTaxids rows)

/-- `parent_to_children.get(p, [])` of `collapse_chains`: the in-bucket
children of `p`, in row order. -/
def tileChildren (rows : List TileRow) (p : Int) : List Int :=
  (rows.filter (tileChildPred rows p)).map fun r => r.taxid

/-- The keep rule of `collapse_chains` (lines 100-112): keep leaves
(no in-bucket children), branches (≥ 2), and nodes whose single child is
not itself mid-chain; drop the rest. -/
def keepNode (rows : List TileRow) (tid : Int) : Bool :=
  match tileChildren rows tid with
  | [] => true
  | [c] => decide (¬ (tileChildren rows c).length = 1)
  | _ :: _ :: _ => true

/-- `collapse_chains` (lines 84-114).  The final
`tile_df[tile_df["taxid"].isin(keep)]` keeps exactly the rows whose taxid
satisfies the keep rule (every row's taxid is in `taxids`). -/
def collapse_chains (rows : List TileRow) : List TileRow :=
  if rows.length ≤ MAX_NODES_PER_TILE then rows
  else rows.filter fun r => keepNode rows r.taxid

/-- The `sort_values(["depth", "y"], kind="mergesort")` comparator
(line 127): ascending lexicographic on (depth, y). -/
def depthYLe (a b : TileRow) : Bool :=
  decide (a.depth < b.depth ∨ (a.depth = b.depth ∧ a.y ≤ b.y))

/-- `iloc[::step]`: every `step`-th element, starting at index 0. -/
def everyNth (l : List TileRow) (step : Nat) : List TileRow :=
  (l.enum.filter fun p => p.1 % step = 0).map Prod.snd

/-- `aggregate_subtrees` (lines 117-159): keep the shallow structure
(`depth ≤ 8`), then fill the remaining budget with a fixed-stride sample
of the deeper rows, data-bearing rows first; truncate to the budget. -/
def aggregate_subtrees (rows : List TileRow) (max_n : Nat) : List TileRow :=
  if rows.length ≤ max_n then rows
  else
    let df := rows.mergeSort depthYLe
    let structural := df.filter fun r => r.depth ≤ 8
    let rest := df.filter fun r => ¬ r.depth ≤ 8
    if max_n ≤ structural.length then structural.take max_n
    else
      let with_data := rest.filter fun r => 0 < r.coverage_state
      let without_data := rest.filter fun r => r.coverage_state = 0
      let take_from_with := min with_data.length (max_n - structural.length)
      let take_from_without := max_n - structural.length - take_from_with
      let with_sample :=
        if take_from_with = 0 then []
        else if with_data.length ≤ take_from_with then with_data
        else
          (everyNth with_data (max 1 (with_data.length / take_from_with))).take
            take_from_with
      let without_sample :=
        if take_from_without = 0 then []
        else if without_data.length ≤ take_from_without then without_data
        else
          (everyNth without_data
              (max 1 (without_data.length / take_from_without))).take
            take_from_without
      (structural ++ with_sample ++ without_sample).take max_n

/-- `lod_downsample` (lines 162-170): pass-through under budget, fast path
straight to aggregation over 100 000 rows, otherwise chain collapse then
aggregation. -/
def lod_downsample (rows : List TileRow) (max_n : Nat) : List TileRow :=
  if rows.length ≤ max_n then rows
  else if 100000 < rows.length then aggregate_subtrees rows max_n
  else aggregate_subtrees (collapse_chains rows) max_n

/-- One `(z, ty)` bucket of `build_tiles` (lines 185-188): the rows whose
assigned row index is `ty`, LOD-reduced to the tile budget. -/
def buildTile (df : List TileRow) (z : Nat) (ty : Int) : List TileRow :=
  lod_downsample (df.filter fun r => assign_tile_y r.y z = ty)
    MAX_NODES_PER_TILE

/-- `aggregate_subtrees` never returns more than `max_n` rows. -/
theorem aggregate_subtrees_length_le (rows : List TileRow) (max_n : Nat) :
    (aggregate_subtrees rows max_n).length ≤ max_n := by
  unfold aggregate_subtrees
  by_cases h1 : rows.length ≤ max_n
  · rw [if_pos h1]; exact h1
  · rw [if_neg h1]
    by_cases h2 : max_n ≤
        ((rows.mergeSort depthYLe).filter fun r => r.depth ≤ 8).length
    · rw [if_pos h2]
      simp only [List.length_take]
      omega
    · rw [if_neg h2]
      simp only [List.length_take]
      omega

/-- C3: every produced tile — any input dataframe, any zoom level, any row
bucket — contains at most `MAX_NODES_PER_TILE = 20 000` rows after LOD
reduction. -/
theorem tile_budget_le (df : List TileRow) (z : Nat) (ty : Int) :
    (buildTile df z ty).length ≤ 20000 := by
  unfold buildTile lod_downsample
  set rows := df.filter fun r => assign_tile_y r.y z = ty with hrows
  by_cases h1 : rows.length ≤ MAX_NODES_PER_TILE
  · rw [if_pos h1]; exact h1
  · rw [if_neg h1]
    by_cases h2 : 100000 < rows.length
    · rw [if_pos h2]
      exact aggregate_subtrees_length_le _ _
    · rw [if_neg h2]
      exact aggregate_subtrees_length_le _ _

/-- C10: for every zoom level `z ≤ 7` the row assignment lands in
`[0, 2^z − 1]`; `y ≥ 1` (including exactly 1) is clamped into the last
row and `y < 0` into row 0, so every node falls in exactly one bucket. -/
theorem assign_tile_y_in_range (z : Nat) (hz : z ≤ 7) (y : ℚ) :
    0 ≤ assign_tile_y y z ∧ assign_tile_y y z ≤ 2 ^ z - 1 ∧
      (1 ≤ y → assign_tile_y y z = 2 ^ z - 1) ∧
      (y < 0 → assign_tile_y y z = 0) := by
  have hn1 : (1 : Int) ≤ 2 ^ z := by exact_mod_cast Nat.one_le_two_pow
  unfold assign_tile_y
  dsimp only
  refine ⟨le_max_left _ _, ?_, ?_, ?_⟩
  · exact max_le (by omega) (min_le_left _ _)
  · intro hy
    have hpow : (0 : ℚ) < 2 ^ z := by positivity
    have hyn : (2 ^ z : ℚ) ≤ y * 2 ^ z := le_mul_of_one_le_left (le_of_lt hpow) hy
    have h0 : (0 : ℚ) ≤ y * 2 ^ z := le_trans (le_of_lt hpow) hyn
    have htr : (2 ^ z : Int) ≤ truncI (y * 2 ^ z) := by
      unfold truncI
      rw [if_pos h0]
      have : ((2 ^ z : Int) : ℚ) ≤ y * 2 ^ z := by push_cast; exact hyn
      exact Int.le_floor.mpr this
    rw [min_eq_left (by omega), max_eq_right (by omega)]
  · intro hy
    have hpow : (0 : ℚ) < 2 ^ z := by positivity
    have hyn : y * 2 ^ z < 0 := mul_neg_of_neg_of_pos hy hpow
    have htr : truncI (y * 2 ^ z) ≤ 0 := by
      unfold truncI
      rw [if_neg (by exact not_le.mpr hyn)]
      exact Int.ceil_le.mpr (by push_cast; exact le_of_lt hyn)
    rw [min_eq_right (by omega), max_eq_left (by omega)]

/-- Witness for C10 at `z = 7`: `y = 1` lands in the last row `127` and
`y = −1/2` in row 0. -/
theorem assign_tile_y_in_range_witness :
    (0 ≤ assign_tile_y 1 7 ∧ assign_tile_y 1 7 ≤ 2 ^ 7 - 1 ∧
      (1 ≤ (1 : ℚ) → assign_tile_y 1 7 = 2 ^ 7 - 1) ∧
      ((1 : ℚ) < 0 → assign_tile_y 1 7 = 0)) ∧
    ((-1/2 : ℚ) < 0 → assign_tile_y (-1/2) 7 = 0) := by
  constructor
  · exact assign_tile_y_in_range 7 (by decide) 1
  · exact (assign_tile_y_in_range 7 (by decide) (-1/2)).2.2.2

/-! ### Chain collapse on a concrete forced bucket (C2)

The spec's chain-collapse scenario: a branch point `P` (taxid 1) with many
leaf children plus a linear single-child chain `A→B→C→D`
(taxids 2→3→4→5).  The bucket holds 20 001 rows, so reduction is forced
(`20 001 > MAX_NODES_PER_TILE`). -/

/-- A positioned row with only the structural fields populated. -/
def simpleRow (t p : Int) : TileRow :=
  ⟨t, p, 0, 0, 0, 0, "", ""⟩

/-- 19 996 extra leaf children of the branch point, taxids 1000…20995. -/
def chainExtras : List TileRow :=
  (List.range 19996).map fun i => simpleRow (1000 + Int.ofNat i) 1

/-- The chain `A→B→C→D` below the branch point: 2→3→4→5. -/
def chainTail : List TileRow :=
  [simpleRow 2 1, simpleRow 3 2, simpleRow 4 3, simpleRow 5 4]

/-- The forced bucket: branch point, its leaf children, and the chain. -/
def chainTileRows : List TileRow :=
  simpleRow 1 (-1) :: (chainExtras ++ chainTail)

theorem chainTileRows_eq :
    chainTileRows = simpleRow 1 (-1) :: (chainExtras ++ chainTail) := rfl

theorem chainTileRows_length : chainTileRows.length = 20001 := by
  unfold chainTileRows chainExtras chainTail
  rw [List.length_cons, List.length_append, List.length_map,
    List.length_range]
  rfl

/-- None of the extra leaves is a child of a taxid other than 1. -/
theorem chainExtras_filter_eq_nil (rows : List TileRow) (q : Int)
    (hq : ¬ (1 : Int) = q) :
    chainExtras.filter (tileChildPred rows q) = [] := by
  rw [List.filter_eq_nil_iff]
  intro a ha
  rcases List.mem_map.mp ha with ⟨i, _, rfl⟩
  simp [tileChildPred, simpleRow, hq]

/-- `tileChildPred` holds for a row whose parent matches a present,
non-negative taxid. -/
theorem tileChildPred_simpleRow_pos (rows : List TileRow) (q t p : Int)
    (h1 : p = q) (h2 : 0 ≤ p) (h3 : p ∈ tileTaxids rows) :
    tileChildPred rows q (simpleRow t p) = true := by
  simp [tileChildPred, simpleRow, h1, h1 ▸ h2, h1 ▸ h3]

/-- `tileChildPred` fails when the row's parent is not the queried id. -/
theorem tileChildPred_simpleRow_neg (rows : List TileRow) (q t p : Int)
    (h1 : ¬ p = q) :
    ¬ tileChildPred rows q (simpleRow t p) = true := by
  simp [tileChildPred, simpleRow, h1]

/-- Taxids 2, 3, 4 and 5 all appear in the bucket's taxid set. -/
theorem chain_mem_taxids (t : Int) (ht : t ∈ ([2, 3, 4, 5] : List Int)) :
    t ∈ tileTaxids chainTileRows := by
  unfold tileTaxids
  rcases (by simpa using ht :
      t = 2 ∨ t = 3 ∨ t = 4 ∨ t = 5) with h | h | h | h <;> subst h
  · exact List.mem_map.mpr ⟨simpleRow 2 1,
      chainTileRows_eq ▸ List.mem_cons_of_mem _
        (List.mem_append_right _ (by simp [chainTail])), rfl⟩
  · exact List.mem_map.mpr ⟨simpleRow 3 2,
      chainTileRows_eq ▸ List.mem_cons_of_mem _
        (List.mem_append_right _ (by simp [chainTail])), rfl⟩
  · exact List.mem_map.mpr ⟨simpleRow 4 3,
      chainTileRows_eq ▸ List.mem_cons_of_mem _
        (List.mem_append_right _ (by simp [chainTail])), rfl⟩
  · exact List.mem_map.mpr ⟨simpleRow 5 4,
      chainTileRows_eq ▸ List.mem_cons_of_mem _
        (List.mem_append_right _ (by simp [chainTail])), rfl⟩

theorem chain_children_2 : tileChildren chainTileRows 2 = [3] := by
  unfold tileChildren
  conv_lhs => arg 2; arg 2; rw [chainTileRows_eq]
  rw [List.filter_cons_of_neg
      (tileChildPred_simpleRow_neg chainTileRows 2 1 (-1) (by decide)),
    List.filter_append,
    chainExtras_filter_eq_nil chainTileRows 2 (by decide),
    show chainTail = [simpleRow 2 1, simpleRow 3 2, simpleRow 4 3,
      simpleRow 5 4] from rfl,
    List.filter_cons_of_neg
      (tileChildPred_simpleRow_neg chainTileRows 2 2 1 (by decide)),
    List.filter_cons_of_pos
      (tileChildPred_simpleRow_pos chainTileRows 2 3 2 rfl (by decide)
        (chain_mem_taxids 2 (by decide))),
    List.filter_cons_of_neg
      (tileChildPred_simpleRow_neg chainTileRows 2 4 3 (by decide)),
    List.filter_cons_of_neg
      (tileChildPred_simpleRow_neg chainTileRows 2 5 4 (by decide)),
    List.filter_nil]
  rfl

theorem chain_children_3 : tileChildren chainTileRows 3 = [4] := by
  unfold tileChildren
  conv_lhs => arg 2; arg 2; rw [chainTileRows_eq]
  rw [List.filter_cons_of_neg
      (tileChildPred_simpleRow_neg chainTileRows 3 1 (-1) (by decide)),
    List.filter_append,
    chainExtras_filter_eq_nil chainTileRows 3 (by decide),
    show chainTail = [simpleRow 2 1, simpleRow 3 2, simpleRow 4 3,
      simpleRow 5 4] from rfl,
    List.filter_cons_of_neg
      (tileChildPred_simpleRow_neg chainTileRows 3 2 1 (by decide)),
    List.filter_cons_of_neg
      (tileChildPred_simpleRow_neg chainTileRows 3 3 2 (by decide)),
    List.filter_cons_of_pos
      (tileChildPred_simpleRow_pos chainTileRows 3 4 3 rfl (by decide)
        (chain_mem_taxids 3 (by decide))),
    List.filter_cons_of_neg
      (tileChildPred_simpleRow_neg chainTileRows 3 5 4 (by decide)),
    List.filter_nil]
  rfl

theorem chain_children_4 : tileChildren chainTileRows 4 = [5] := by
  unfold tileChildren
  conv_lhs => arg 2; arg 2; rw [chainTileRows_eq]
  rw [List.filter_cons_of_neg
      (tileChildPred_simpleRow_neg chainTileRows 4 1 (-1) (by decide)),
    List.filter_append,
    chainExtras_filter_eq_nil chainTileRows 4 (by decide),
    show chainTail = [simpleRow 2 1, simpleRow 3 2, simpleRow 4 3,
      simpleRow 5 4] from rfl,
    List.filter_cons_of_neg
      (tileChildPred_simpleRow_neg chainTileRows 4 2 1 (by decide)),
    List.filter_cons_of_neg
      (tileChildPred_simpleRow_neg chainTileRows 4 3 2 (by decide)),
    List.filter_cons_of_neg
      (tileChildPred_simpleRow_neg chainTileRows 4 4 3 (by decide)),
    List.filter_cons_of_pos
      (tileChildPred_simpleRow_pos chainTileRows 4 5 4 rfl (by decide)
        (chain_mem_taxids 4 (by decide))),
    List.filter_nil]
  rfl

theorem chain_children_5 : tileChildren chainTileRows 5 = [] := by
  unfold tileChildren
  conv_lhs => arg 2; arg 2; rw [chainTileRows_eq]
  rw [List.filter_cons_of_neg
      (tileChildPred_simpleRow_neg chainTileRows 5 1 (-1) (by decide)),
    List.filter_append,
    chainExtras_filter_eq_nil chainTileRows 5 (by decide),
    show chainTail = [simpleRow 2 1, simpleRow 3 2, simpleRow 4 3,
      simpleRow 5 4] from rfl,
    List.filter_cons_of_neg
      (tileChildPred_simpleRow_neg chainTileRows 5 2 1 (by decide)),
    List.filter_cons_of_neg
      (tileChildPred_simpleRow_neg chainTileRows 5 3 2 (by decide)),
    List.filter_cons_of_neg
      (tileChildPred_simpleRow_neg chainTileRows 5 4 3 (by decide)),
    List.filter_cons_of_neg
      (tileChildPred_simpleRow_neg chainTileRows 5 5 4 (by decide)),
    List.filter_nil]
  rfl

/-- The keep rule drops `A` (taxid 2): its single child 3 is itself
mid-chain. -/
theorem keepNode_chain_2 : keepNode chainTileRows 2 = false := by
  unfold keepNode
  rw [chain_children_2]
  show decide (¬ (tileChildren chainTileRows 3).length = 1) = false
  rw [chain_children_3]
  rfl

/-- The keep rule drops `B` (taxid 3): its single child 4 is mid-chain. -/
theorem keepNode_chain_3 : keepNode chainTileRows 3 = false := by
  unfold keepNode
  rw [chain_children_3]
  show decide (¬ (tileChildren chainTileRows 4).length = 1) = false
  rw [chain_children_4]
  rfl

/-- The keep rule keeps `C` (taxid 4): its single child 5 is a leaf. -/
theorem keepNode_chain_4 : keepNode chainTileRows 4 = true := by
  unfold keepNode
  rw [chain_children_4]
  show decide (¬ (tileChildren chainTileRows 5).length = 1) = true
  rw [chain_children_5]
  rfl

/-- The keep rule keeps `D` (taxid 5): it is a leaf. -/
theorem keepNode_chain_5 : keepNode chainTileRows 5 = true := by
  unfold keepNode
  rw [chain_children_5]

/-- On the 20 001-row bucket, reduction is forced and `collapse_chains`
filters by the keep rule. -/
theorem collapse_chains_chainTileRows :
    collapse_chains chainTileRows =
      chainTileRows.filter fun r => keepNode chainTileRows r.taxid := by
  unfold collapse_chains
  rw [if_neg (by rw [chainTileRows_length]; decide)]

/-- C2 counterexample: on the concrete forced bucket with branch point 1
and chain 2→3→4→5, the claim's expectation — chain head `A` (taxid 2) and
leaf `D` (taxid 5) kept, `B` (3) and `C` (4) dropped — is false: taxid 2
does not survive the collapse. -/
theorem collapse_chains_chain_claim_false :
    ¬ ((∃ r ∈ collapse_chains chainTileRows, r.taxid = 2) ∧
       (∃ r ∈ collapse_chains chainTileRows, r.taxid = 5) ∧
       (∀ r ∈ collapse_chains chainTileRows, ¬ r.taxid = 3) ∧
       (∀ r ∈ collapse_chains chainTileRows, ¬ r.taxid = 4)) := by
  rintro ⟨⟨r, hr, htax⟩, -, -, -⟩
  rw [collapse_chains_chainTileRows] at hr
  simp only [List.mem_filter] at hr
  have hkeep := hr.2
  rw [htax, keepNode_chain_2] at hkeep
  cases hkeep

/-- C2 amended: on the same forced bucket, the collapse keeps `C`
(taxid 4, the chain node whose single child is the terminating leaf — the
code's "chain head") and the leaf `D` (taxid 5), and drops `A` (2) and
`B` (3). -/
theorem collapse_chains_chain_behavior :
    (∃ r ∈ collapse_chains chainTileRows, r.taxid = 4) ∧
    (∃ r ∈ collapse_chains chainTileRows, r.taxid = 5) ∧
    (∀ r ∈ collapse_chains chainTileRows, ¬ r.taxid = 2) ∧
    (∀ r ∈ collapse_chains chainTileRows, ¬ r.taxid = 3) := by
  refine ⟨⟨simpleRow 4 3, ?_, rfl⟩, ⟨simpleRow 5 4, ?_, rfl⟩, ?_, ?_⟩
  · rw [collapse_chains_chainTileRows]
    refine List.mem_filter.mpr ⟨?_, ?_⟩
    · rw [chainTileRows_eq]
      exact List.mem_cons_of_mem _
        (List.mem_append_right _ (by simp [chainTail]))
    · exact keepNode_chain_4
  · rw [collapse_chains_chainTileRows]
    refine List.mem_filter.mpr ⟨?_, ?_⟩
    · rw [chainTileRows_eq]
      exact List.mem_cons_of_mem _
        (List.mem_append_right _ (by simp [chainTail]))
    · exact keepNode_chain_5
  · intro r hr htax
    rw [collapse_chains_chainTileRows] at hr
    simp only [List.mem_filter] at hr
    have hkeep := hr.2
    rw [htax, keepNode_chain_2] at hkeep
    cases hkeep
  · intro r hr htax
    rw [collapse_chains_chainTileRows] at hr
    simp only [List.mem_filter] at hr
    have hkeep := hr.2
    rw [htax, keepNode_chain_3] at hkeep
    cases hkeep


/-! ## Radial layout (`scripts/radial_layout.py`)

The layout formulas use `sqrt`, `sin`, `cos` and `log2`; its floats are
idealised as real numbers.  The input tree is the recursive structure
produced upstream; `nbdesc` is the cached `_count_descendants` value,
which always equals the structural count.  The record collection mirrors
`_collect` for the fields the claims concern (the wedge polygon and clade
centre construction of §4.3 is omitted from the embedding; no claim
touches it). -/

/-- The input tree of `radial_layout`: an id and the ordered children. -/
inductive PTree where
  | node (id : Nat) (children : List PTree)

mutual

/-- `_count_descendants` (radial_layout.py lines 28-35): self plus all
descendants. -/
def nbdesc : PTree → Nat
  | .node _ cs => 1 + nbdescList cs

/-- Sum of `_count_descendants` over a list of children. -/
def nbdescList : List PTree → Nat
  | [] => 0
  | c :: rest => nbdesc c + nbdescList rest

end

/-- `ROOT_X = -6.0` (line 15). -/
noncomputable def ROOT_X : ℝ := -6.0

/-- `ROOT_Y = 9.660254 - 10.0` (line 16). -/
noncomputable def ROOT_Y : ℝ := 9.660254 - 10.0

/-- `ROOT_ALPHA = 150.0` (line 17). -/
noncomputable def ROOT_ALPHA : ℝ := 150.0

/-- `ROOT_RAY = 10.0` (line 18). -/
noncomputable def ROOT_RAY : ℝ := 10.0

/-- `ZOOM_CONST = 30.0` (line 19). -/
noncomputable def ZOOM_CONST : ℝ := 30.0

/-- `_rad` (lines 24-25): degrees to radians. -/
noncomputable def radOf (deg : ℝ) : ℝ := deg * Real.pi / 180.0

/-- `tot = sum(sqrt(nbdesc(ch)) for ch in children)` (line 79). -/
noncomputable def angTot (cs : List PTree) : ℝ :=
  (cs.map fun c => Real.sqrt (nbdesc c)).sum

/-- The `tot <= 0` guard (lines 80-81). -/
noncomputable def angTotGuard (cs : List PTree) : ℝ :=
  if angTot cs ≤ 0 then 1.0 else angTot cs

/-- `ch["ang"] = 180.0 * (sqrt(nbdesc(ch)) / tot) / 2.0` (line 83). -/
noncomputable def childAng (cs : List PTree) (c : PTree) : ℝ :=
  180.0 * (Real.sqrt (nbdesc c) / angTotGuard cs) / 2.0

/-- The `special` flag (lines 86-90), computed from the number of children
and the node's own cached `nbdesc`. -/
def specialOf (n_children nbdescN : Nat) : Nat :=
  if n_children = 1 ∧ 1 < nbdescN then 1
  else if n_children = 1 ∧ nbdescN = 1 then 2
  else 0

/-- `tan_ang = sin(rad(ang)) / cos(rad(ang))` (line 99). -/
noncomputable def tanAng (a : ℝ) : ℝ := Real.sin (radOf a) / Real.cos (radOf a)

/-- Child ray assignment (lines 93-100). -/
noncomputable def childRay (ray : ℝ) (special : Nat) (a : ℝ) : ℝ :=
  if special = 1 then ray - (ray * 20) / 100
  else if special = 2 then ray - (ray * 50) / 100
  else (ray * tanAng a) / (1.0 + tanAng a)

/-- The doubled angle sequence of lines 105-108. -/
def doubled : List ℝ → List ℝ
  | [] => []
  | a :: rest => a :: a :: doubled rest

/-- The running cumulative sums of lines 109-113. -/
noncomputable def cumsum (l : List ℝ) : List ℝ :=
  ((l.foldl (fun acc a => (acc.1 ++ [acc.2 + a], acc.2 + a)) ([], 0)) : List ℝ × ℝ).1

/-- `ang_final` (lines 114-115): every second cumulative value, shifted by
`-(90 - alpha)`. -/
noncomputable def angFinal (angles : List ℝ) (alpha : ℝ) : List ℝ :=
  let ang_doubled := doubled angles
  let ang_cumsum := cumsum ang_doubled
  ((List.range angles.length).map fun i => ang_cumsum.getD (2 * i) 0).map
    fun a => a - (90.0 - alpha)

/-- Child zoom threshold (lines 122-123):
`max(0, ceil(log2(ZOOM_CONST / ray)))` with the `ray > 0` guard. -/
noncomputable def zoomOf (ray : ℝ) : ℤ :=
  max 0 ⌈if 0 < ray then Real.logb 2 (ZOOM_CONST / ray) else 0⌉

/-- The attributes `_layout` stores on each node. -/
structure NodeAttrs where
  x : ℝ
  y : ℝ
  alpha : ℝ
  ray : ℝ
  zoomview : ℤ

/-- The laid-out tree: id, assigned attributes, laid-out children. -/
inductive ATree where
  | node (id : Nat) (attrs : NodeAttrs) (children : List ATree)

/-- The attribute record of a laid-out node. -/
def ATree.attrs : ATree → NodeAttrs
  | .node _ a _ => a

/-- The children of a laid-out node. -/
def ATree.children : ATree → List ATree
  | .node _ _ cs => cs

mutual

/-- `_layout` (lines 69-126): given a node and the attributes its parent
assigned to it, lay out its children and recurse. -/
noncomputable def layoutNode : PTree → ℝ → ℝ → ℝ → ℝ → ℤ → ATree
  | .node i cs, x, y, alpha, ray, zoomview =>
    let nbdescN := nbdesc (.node i cs)
    let special := specialOf cs.length nbdescN
    let alphas := angFinal (cs.map (childAng cs)) alpha
    .node i ⟨x, y, alpha, ray, zoomview⟩
      (layoutChildren cs x y ray special alphas cs 0)

/-- The per-child loop of `_layout` (lines 93-126): ray, dist, absolute
angle, position and zoom threshold for each child, then recursion. -/
noncomputable def layoutChildren (fullCs : List PTree) (x y ray : ℝ)
    (special : Nat) (alphas : List ℝ) : List PTree → Nat → List ATree
  | [], _ => []
  | c :: rest, idx =>
    let a := childAng fullCs c
    let rayC := childRay ray special a
    let dist := ray - rayC
    let alphaC := alphas.getD idx 0
    let xC := x + dist * Real.cos (radOf alphaC)
    let yC := y + dist * Real.sin (radOf alphaC)
    layoutNode c xC yC alphaC rayC (zoomOf rayC) ::
      layoutChildren fullCs x y ray special alphas rest (idx + 1)

end

/-- `radial_layout` root setup (lines 139-147): fixed root attributes, the
root zoom formula (no `ray > 0` guard at the root), then the recursive
layout. -/
noncomputable def radialLayoutTree (t : PTree)
    (root_x root_y root_alpha root_ray : ℝ) : ATree :=
  layoutNode t root_x root_y root_alpha root_ray
    (max 0 ⌈Real.logb 2 (ZOOM_CONST / root_ray)⌉)

/-- One emitted node record (lines 164-178), restricted to the fields the
claims concern (polygon / clade centre omitted). -/
structure LayoutRecord where
  id : Nat
  x : ℝ
  y : ℝ
  alpha : ℝ
  ray : ℝ
  zoomview : ℤ
  tip : Bool

mutual

/-- `_collect` (lines 151-181): pre-order flattening of the laid-out
tree, root first. -/
noncomputable def collectNodes : ATree → List LayoutRecord
  | .node i a cs =>
    ⟨i, a.x, a.y, a.alpha, a.ray, a.zoomview, cs.isEmpty⟩ :: collectList cs

/-- `_collect` over a child list, in order. -/
noncomputable def collectList : List ATree → List LayoutRecord
  | [] => []
  | c :: rest => collectNodes c ++ collectList rest

end

/-- `radial_layout` (lines 131-184) with the default root constants: the
flat list of emitted node records, root first. -/
noncomputable def radial_layout (t : PTree) : List LayoutRecord :=
  collectNodes (radialLayoutTree t ROOT_X ROOT_Y ROOT_ALPHA ROOT_RAY)


/-- C8: the first emitted record (the root) carries exactly the default
root constants: position `(-6.0, -0.339746)`, `alpha = 150`, `ray = 10`. -/
theorem radial_layout_root_fixed (t : PTree) :
    ∃ r rest, radial_layout t = r :: rest ∧ r.x = -6 ∧ r.y = -0.339746 ∧
      r.alpha = 150 ∧ r.ray = 10 := by
  cases t with
  | node i cs =>
    rw [radial_layout, radialLayoutTree, layoutNode, collectNodes]
    refine ⟨_, _, rfl, ?_, ?_, ?_, ?_⟩
    · show ROOT_X = -6
      norm_num [ROOT_X]
    · show ROOT_Y = -0.339746
      norm_num [ROOT_Y]
    · show ROOT_ALPHA = 150
      norm_num [ROOT_ALPHA]
    · show ROOT_RAY = 10
      norm_num [ROOT_RAY]

/-- C1 counterexample: a root whose only child is a leaf.  The leaf's
descendant count is 1, so the claim predicts the 50% shrink
(`ray − ray·0.50 = 5`), but the code tests the PARENT's descendant count
(2 > 1) and applies the 20% shrink: the child's ray is 8, not 5. -/
theorem single_child_leaf_ray_counterexample :
    ((radialLayoutTree (.node 0 [.node 1 []]) ROOT_X ROOT_Y ROOT_ALPHA
        ROOT_RAY).children.map fun c => (ATree.attrs c).ray) = [8] ∧
      ¬ ((8 : ℝ) = 10 - 10 * 50 / 100) := by
  constructor
  · simp only [radialLayoutTree, layoutNode, ATree.children, layoutChildren,
      List.map_cons, List.map_nil, ATree.attrs]
    rw [show nbdesc (.node 0 [.node 1 []]) = 2 from by
      rw [nbdesc, nbdescList, nbdesc, nbdescList]]
    rw [show specialOf [PTree.node 1 []].length 2 = 1 from by
      rw [specialOf]
      norm_num]
    rw [childRay]
    norm_num [ROOT_RAY]
  · norm_num


/-! ### Arithmetic facts about the layout formulas -/

/-- Every node counts itself: `nbdesc ≥ 1`. -/
theorem nbdesc_pos (t : PTree) : 1 ≤ nbdesc t := by
  cases t with
  | node i cs =>
    rw [nbdesc]
    omega

/-- `sqrt(nbdesc) ≥ 1`. -/
theorem one_le_sqrt_nbdesc (t : PTree) : 1 ≤ Real.sqrt (nbdesc t) := by
  rw [show (1 : ℝ) = Real.sqrt 1 from (Real.sqrt_one).symm]
  apply Real.sqrt_le_sqrt
  exact_mod_cast nbdesc_pos t

theorem angTot_nil : angTot [] = 0 := by
  rw [angTot]
  rfl

theorem angTot_cons (c : PTree) (l : List PTree) :
    angTot (c :: l) = Real.sqrt (nbdesc c) + angTot l := by
  rw [angTot, angTot, List.map_cons, List.sum_cons]

theorem angTot_append (l1 l2 : List PTree) :
    angTot (l1 ++ l2) = angTot l1 + angTot l2 := by
  rw [angTot, angTot, angTot, List.map_append, List.sum_append]

/-- The angle denominator is non-negative. -/
theorem angTot_nonneg (l : List PTree) : 0 ≤ angTot l := by
  induction l with
  | nil => rw [angTot_nil]
  | cons c rest ih =>
    rw [angTot_cons]
    have := one_le_sqrt_nbdesc c
    linarith

/-- A nonempty child list contributes at least 1 to the denominator. -/
theorem one_le_angTot (l : List PTree) (h : l ≠ []) : 1 ≤ angTot l := by
  match l with
  | c :: rest =>
    rw [angTot_cons]
    have h1 := one_le_sqrt_nbdesc c
    have h2 := angTot_nonneg rest
    linarith

/-- With at least two children, the denominator strictly dominates any
single term by at least 1. -/
theorem angTot_ge_term_add_one (cs : List PTree) (c : PTree) (hc : c ∈ cs)
    (hlen : 2 ≤ cs.length) :
    Real.sqrt (nbdesc c) + 1 ≤ angTot cs := by
  rcases List.append_of_mem hc with ⟨l1, l2, rfl⟩
  rw [angTot_append, angTot_cons]
  have h1 := angTot_nonneg l1
  have h2 := angTot_nonneg l2
  by_cases hl1 : l1 = []
  · subst hl1
    have : l2 ≠ [] := by
      intro h0
      subst h0
      simp at hlen
    have := one_le_angTot l2 this
    linarith
  · have := one_le_angTot l1 hl1
    linarith

/-- `sum (map (k * f ·)) = k * sum (map f)`. -/
theorem sum_map_mul_const (l : List PTree) (k : ℝ) (f : PTree → ℝ) :
    (l.map fun c => k * f c).sum = k * (l.map f).sum := by
  induction l with
  | nil => simp
  | cons c rest ih =>
    rw [List.map_cons, List.sum_cons, ih, List.map_cons, List.sum_cons]
    ring

/-- C7: for a node with at least two children the doubled half-angles sum
to 180° (exactly, in the real-number idealisation; in particular within
the claimed `1e-6` tolerance). -/
theorem angle_sum_conservation (cs : List PTree) (h : 2 ≤ cs.length) :
    |(cs.map fun c => 2 * childAng cs c).sum - 180| < 1 / 1000000 := by
  have hne : cs ≠ [] := by
    intro h0
    subst h0
    simp at h
  have htot : 1 ≤ angTot cs := one_le_angTot cs hne
  have hguard : angTotGuard cs = angTot cs := by
    rw [angTotGuard, if_neg (by linarith)]
  have hfun : ∀ c ∈ cs,
      2 * childAng cs c = (180 / angTot cs) * Real.sqrt (nbdesc c) := by
    intro c _
    rw [childAng, hguard]
    field_simp
    ring
  have hmap : (cs.map fun c => 2 * childAng cs c) =
      cs.map fun c => (180 / angTot cs) * Real.sqrt (nbdesc c) :=
    List.map_congr_left hfun
  rw [hmap, sum_map_mul_const]
  rw [show (cs.map fun c => Real.sqrt (nbdesc c)).sum = angTot cs from by
    rw [angTot]]
  rw [div_mul_cancel₀ 180 (by linarith : angTot cs ≠ 0)]
  norm_num

/-- Witness for C7: two leaf children; the hypothesis `2 ≤ length` holds
and the angle sum is within tolerance. -/
theorem angle_sum_conservation_witness :
    2 ≤ ([PTree.node 0 [], PTree.node 1 []] : List PTree).length ∧
    |(([PTree.node 0 [], PTree.node 1 []] : List PTree).map
        fun c => 2 * childAng [PTree.node 0 [], PTree.node 1 []] c).sum -
        180| < 1 / 1000000 :=
  ⟨by simp, angle_sum_conservation [PTree.node 0 [], PTree.node 1 []] (by simp)⟩


theorem childAng_pos_lt_90 (cs : List PTree) (c : PTree) (hc : c ∈ cs)
    (hlen : 2 ≤ cs.length) :
    0 < childAng cs c ∧ childAng cs c < 90 := by
  have hs := one_le_sqrt_nbdesc c
  have htot := angTot_ge_term_add_one cs c hc hlen
  have htot_pos : 0 < angTot cs := by linarith
  have hguard : angTotGuard cs = angTot cs := by
    rw [angTotGuard, if_neg (by linarith)]
  rw [childAng, hguard]
  have hq_pos : 0 < Real.sqrt (nbdesc c) / angTot cs :=
    div_pos (by linarith) htot_pos
  have hq_lt : Real.sqrt (nbdesc c) / angTot cs < 1 :=
    (div_lt_one htot_pos).mpr (by linarith)
  constructor
  · linarith
  · linarith

theorem tanAng_pos (a : ℝ) (h0 : 0 < a) (h90 : a < 90) : 0 < tanAng a := by
  rw [tanAng]
  have hpi := Real.pi_pos
  have hrad0 : 0 < radOf a := by
    rw [radOf]
    positivity
  have hradlt : radOf a < Real.pi / 2 := by
    rw [radOf]
    nlinarith
  apply div_pos
  · exact Real.sin_pos_of_pos_of_lt_pi hrad0 (by linarith)
  · exact Real.cos_pos_of_mem_Ioo ⟨by linarith, hradlt⟩

theorem childRay_tan_bounds (ray : ℝ) (hray : 0 < ray) (a : ℝ)
    (h0 : 0 < a) (h90 : a < 90) :
    0 < childRay ray 0 a ∧ childRay ray 0 a ≤ ray := by
  have ht := tanAng_pos a h0 h90
  rw [childRay, if_neg (by decide), if_neg (by decide)]
  constructor
  · apply div_pos (mul_pos hray ht)
    linarith
  · rw [div_le_iff (by linarith : (0 : ℝ) < 1.0 + tanAng a)]
    nlinarith

/-- Bounds on the assigned child ray at any node: positive and no larger
than the parent's ray (for a positive parent ray). -/
theorem childRay_pos_le (cs : List PTree) (c : PTree) (hc : c ∈ cs)
    (ray : ℝ) (hray : 0 < ray) (nbdescN : Nat)
    (hnb : cs.length = 1 → 1 < nbdescN) :
    0 < childRay ray (specialOf cs.length nbdescN) (childAng cs c) ∧
      childRay ray (specialOf cs.length nbdescN) (childAng cs c) ≤ ray := by
  match cs, hc with
  | [c0], hc =>
    have hsp : specialOf [c0].length nbdescN = 1 := by
      rw [specialOf, if_pos ⟨rfl, hnb rfl⟩]
    rw [hsp, childRay, if_pos rfl]
    constructor
    · linarith
    · linarith
  | c0 :: c1 :: cs2, hc =>
    have hsp : specialOf (c0 :: c1 :: cs2).length nbdescN = 0 := by
      rw [specialOf, if_neg (by simp), if_neg (by simp)]
    have hang := childAng_pos_lt_90 (c0 :: c1 :: cs2) c hc (by simp)
    rw [hsp]
    exact childRay_tan_bounds ray hray _ hang.1 hang.2

/-- `zoomview` is antitone in the ray: a smaller (positive) ray yields a
zoom threshold at least as large. -/
theorem zoomOf_antitone (a b : ℝ) (ha : 0 < a) (hab : a ≤ b) :
    zoomOf b ≤ zoomOf a := by
  have hb : 0 < b := lt_of_lt_of_le ha hab
  rw [zoomOf, zoomOf, if_pos ha, if_pos hb]
  apply max_le_max (le_refl 0)
  apply Int.ceil_mono
  have hZ : (0 : ℝ) < ZOOM_CONST := by
    rw [ZOOM_CONST]
    norm_num
  apply Real.logb_le_logb_of_le one_lt_two (div_pos hZ hb)
  gcongr

/-- The attributes written by `layoutNode` are exactly the arguments it
was given. -/
theorem layoutNode_attrs (t : PTree) (x y alpha ray : ℝ) (zoom : ℤ) :
    (layoutNode t x y alpha ray zoom).attrs = ⟨x, y, alpha, ray, zoom⟩ := by
  cases t with
  | node i cs =>
    rw [layoutNode, ATree.attrs]

/-- Every laid-out child arises from a source child by the child-ray and
child-zoom formulas. -/
theorem layoutChildren_mem (fullCs : List PTree) (x y ray : ℝ)
    (special : Nat) (alphas : List ℝ) (l : List PTree) (idx : Nat)
    (c : ATree)
    (hc : c ∈ layoutChildren fullCs x y ray special alphas l idx) :
    ∃ c' ∈ l, ∃ xC yC alphaC,
      c = layoutNode c' xC yC alphaC
            (childRay ray special (childAng fullCs c'))
            (zoomOf (childRay ray special (childAng fullCs c'))) := by
  induction l generalizing idx with
  | nil =>
    rw [layoutChildren] at hc
    cases hc
  | cons c0 rest ih =>
    simp only [layoutChildren] at hc
    rcases List.mem_cons.mp hc with h | h
    · exact ⟨c0, List.mem_cons_self _ _, _, _, _, h⟩
    · rcases ih _ h with ⟨c', hmem, xC, yC, alphaC, hEq⟩
      exact ⟨c', List.mem_cons_of_mem _ hmem, xC, yC, alphaC, hEq⟩

mutual

/-- Ray/zoom monotonicity along every parent-child edge of a laid-out
tree. -/
def RayZoomMono : ATree → Prop
  | .node _ a cs =>
    (∀ c ∈ cs, (ATree.attrs c).ray ≤ a.ray ∧
      a.zoomview ≤ (ATree.attrs c).zoomview) ∧
    RayZoomMonoList cs

/-- `RayZoomMono` for every tree in a list. -/
def RayZoomMonoList : List ATree → Prop
  | [] => True
  | c :: rest => RayZoomMono c ∧ RayZoomMonoList rest

end

/-- A node with a single child has descendant count > 1. -/
theorem single_child_nbdesc (i : Nat) (cs : List PTree)
    (h : cs.length = 1) : 1 < nbdesc (.node i cs) := by
  match cs, h with
  | [c0], _ =>
    rw [nbdesc, nbdescList, nbdescList]
    have := nbdesc_pos c0
    omega

mutual

theorem layout_ray_zoom_mono (t : PTree) (x y alpha ray : ℝ)
    (hray : 0 < ray) :
    RayZoomMono (layoutNode t x y alpha ray (zoomOf ray)) := by
  cases t with
  | node i cs =>
    rw [layoutNode, RayZoomMono]
    have hnb : cs.length = 1 → 1 < nbdesc (.node i cs) :=
      single_child_nbdesc i cs
    constructor
    · intro c hc
      rcases layoutChildren_mem cs x y ray
          (specialOf cs.length (nbdesc (.node i cs)))
          (angFinal (cs.map (childAng cs)) alpha) cs 0 c hc with
        ⟨c', hc', xC, yC, alphaC, rfl⟩
      rw [layoutNode_attrs]
      have hb := childRay_pos_le cs c' hc' ray hray _ hnb
      exact ⟨hb.2, zoomOf_antitone _ _ hb.1 hb.2⟩
    · apply layout_ray_zoom_mono_list
      intro c' hc'
      exact (childRay_pos_le cs c' hc' ray hray _ hnb).1

theorem layout_ray_zoom_mono_list (fullCs : List PTree) (x y ray : ℝ)
    (special : Nat) (alphas : List ℝ) (l : List PTree) (idx : Nat)
    (hpos : ∀ c ∈ l, 0 < childRay ray special (childAng fullCs c)) :
    RayZoomMonoList (layoutChildren fullCs x y ray special alphas l idx) := by
  match l with
  | [] =>
    rw [layoutChildren, RayZoomMonoList]
    trivial
  | c :: rest =>
    simp only [layoutChildren]
    rw [RayZoomMonoList]
    constructor
    · exact layout_ray_zoom_mono c _ _ _ _
        (hpos c (List.mem_cons_self _ _))
    · exact layout_ray_zoom_mono_list fullCs x y ray special alphas rest
        (idx + 1) (fun c' hc' => hpos c' (List.mem_cons_of_mem _ hc'))

end

/-- C6: after the radial layout with the default root constants, along
every parent-child edge the child's ray is no larger than the parent's
and the child's zoomview no smaller — i.e. ray is non-increasing and
zoomview non-decreasing along every root-to-leaf path. -/
theorem layout_ray_zoom_monotone (t : PTree) :
    RayZoomMono (radialLayoutTree t ROOT_X ROOT_Y ROOT_ALPHA ROOT_RAY) := by
  rw [radialLayoutTree]
  rw [show (max 0 ⌈Real.logb 2 (ZOOM_CONST / ROOT_RAY)⌉ : ℤ) =
      zoomOf ROOT_RAY from by
    rw [zoomOf, if_pos (by rw [ROOT_RAY]; norm_num)]]
  exact layout_ray_zoom_mono t _ _ _ _ (by rw [ROOT_RAY]; norm_num)


mutual

/-- Every node with exactly one child assigned that child
`ray − ray·20/100`. -/
def SingleChildRule : ATree → Prop
  | .node _ a cs =>
    (cs.length = 1 →
      ∀ c ∈ cs, (ATree.attrs c).ray = a.ray - (a.ray * 20) / 100) ∧
    SingleChildRuleList cs

/-- `SingleChildRule` for every tree in a list. -/
def SingleChildRuleList : List ATree → Prop
  | [] => True
  | c :: rest => SingleChildRule c ∧ SingleChildRuleList rest

end

/-- The laid-out children list has one entry per source child. -/
theorem layoutChildren_length (fullCs : List PTree) (x y ray : ℝ)
    (special : Nat) (alphas : List ℝ) (l : List PTree) (idx : Nat) :
    (layoutChildren fullCs x y ray special alphas l idx).length =
      l.length := by
  induction l generalizing idx with
  | nil =>
    rw [layoutChildren]
    rfl
  | cons c rest ih =>
    simp only [layoutChildren, List.length_cons]
    rw [ih]

mutual

theorem layout_single_child_rule (t : PTree) (x y alpha ray : ℝ)
    (zoom : ℤ) :
    SingleChildRule (layoutNode t x y alpha ray zoom) := by
  cases t with
  | node i cs =>
    rw [layoutNode, SingleChildRule]
    constructor
    · intro hlen c hc
      have hcs : cs.length = 1 := by
        rw [layoutChildren_length] at hlen
        exact hlen
      rcases layoutChildren_mem cs x y ray
          (specialOf cs.length (nbdesc (.node i cs)))
          (angFinal (cs.map (childAng cs)) alpha) cs 0 c hc with
        ⟨c', _, xC, yC, alphaC, rfl⟩
      rw [layoutNode_attrs]
      show childRay ray (specialOf cs.length (nbdesc (.node i cs)))
          (childAng cs c') = ray - (ray * 20) / 100
      rw [hcs, specialOf,
        if_pos ⟨rfl, single_child_nbdesc i cs hcs⟩,
        childRay, if_pos rfl]
    · exact layout_single_child_rule_list cs x y ray _ _ cs 0

theorem layout_single_child_rule_list (fullCs : List PTree) (x y ray : ℝ)
    (special : Nat) (alphas : List ℝ) (l : List PTree) (idx : Nat) :
    SingleChildRuleList
      (layoutChildren fullCs x y ray special alphas l idx) := by
  match l with
  | [] =>
    rw [layoutChildren, SingleChildRuleList]
    trivial
  | c :: rest =>
    simp only [layoutChildren]
    rw [SingleChildRuleList]
    exact ⟨layout_single_child_rule c _ _ _ _ _,
      layout_single_child_rule_list fullCs x y ray special alphas rest
        (idx + 1)⟩

end

/-- C1 amended: in the radial layout an only child's ray is always the
parent's ray shrunk by 20% (the code tests the parent's descendant count,
which is always > 1 when a child exists, so the 50% branch never fires). -/
theorem layout_single_child_twenty (t : PTree) (x y alpha ray : ℝ)
    (zoom : ℤ) :
    SingleChildRule (layoutNode t x y alpha ray zoom) :=
  layout_single_child_rule t x y alpha ray zoom

end EukaTracker
